import Mathlib

/-!
Shallow embedding of the business-day counting kernel of
`crates/polars-ops/src/series/ops/business.rs`.

Dates are integers counting whole days since the epoch (`i32` in the
source; modelled as unbounded `Int`, since all reachable arithmetic on
realistic dates stays far from the `i32` boundaries — a separate
`weekday_i32` model below captures the two's-complement wraparound of
the subtraction `x - 4` for the in-bounds safety claim).

Rust's `%` on integers is truncating remainder, modelled by `Int.tmod`;
Rust's `/` is truncating division, modelled by `Int.tdiv`.
-/

/-- A week mask: `[bool; 7]`, indexed by weekday (0 = Monday .. 6 = Sunday),
`true` meaning business day. -/
abbrev WeekMask := Fin 7 → Bool

/-- `fn weekday(x: i32) -> usize { (((x - 4) % 7 + 7) % 7) as usize }`.
The first truncating remainder may be negative; adding 7 and reducing again
yields a value in `[0, 6]`. -/
def weekday (x : Int) : Nat :=
  ((((x - 4).tmod 7) + 7).tmod 7).toNat

/-- `fn increment_weekday(x: usize) -> usize { if x == 6 { 0 } else { x + 1 } }`. -/
def increment_weekday (x : Nat) : Nat :=
  if x = 6 then 0 else x + 1

/-- Indexing `week_mask.get_unchecked(i)`: total model of the unchecked read.
All call sites keep `i < 7` (proved below), so the `false` default branch is
never taken. -/
def wmaskGet (m : WeekMask) (i : Nat) : Bool :=
  if h : i < 7 then m ⟨i, h⟩ else false

/-- `week_mask.iter().filter(|&x| *x).count()`: the number of `true` entries. -/
def n_business_days (m : WeekMask) : Nat :=
  (List.finRange 7).countP m

/-- The remainder loop of `business_day_count_impl`:
`while start_date < end_date { if week_mask[start_weekday] { count += 1 };
start_date += 1; start_weekday = increment_weekday(start_weekday) }`.
`start_date` increases by 1 each iteration, so the loop runs exactly
`(end_date - start_date).toNat` times; that trip count is the `fuel`
argument. -/
def business_loop (week_mask : WeekMask) : Nat → Nat → Int → Int
  | 0, _, count => count
  | fuel + 1, start_weekday, count =>
      business_loop week_mask fuel (increment_weekday start_weekday)
        (if wmaskGet week_mask start_weekday then count + 1 else count)

/-- `fn business_day_count_impl(start_date, end_date, week_mask,
n_business_days_in_week_mask, holidays) -> i32`.

If `start_date > end_date` the bounds are swapped and both shifted by `+1`,
the forward count is computed, and the result negated.

`holidays.binary_search(&start_date)` on a sorted, deduplicated slice returns
(in both the `Ok` and `Err` arms, which the source treats identically) the
number of entries strictly below `start_date`; likewise the second search on
the suffix `holidays[holidays_begin..]` yields, after adding back
`holidays_begin`, the number of entries strictly below `end_date`. Both are
modelled by `countP`. -/
def business_day_count_impl (start_date0 end_date0 : Int) (week_mask : WeekMask)
    (n_business_days_in_week_mask : Int) (holidays : List Int) : Int :=
  let swapped : Bool := decide (end_date0 < start_date0)
  let start_date : Int := if swapped then end_date0 + 1 else start_date0
  let end_date : Int := if swapped then start_date0 + 1 else end_date0
  let holidays_begin : Int := (holidays.countP (fun h => decide (h < start_date)) : Nat)
  let holidays_end : Int := (holidays.countP (fun h => decide (h < end_date)) : Nat)
  let start_weekday : Nat := weekday start_date
  let diff : Int := end_date - start_date
  let whole_weeks : Int := diff.tdiv 7
  let count : Int :=
    -(holidays_end - holidays_begin) + whole_weeks * n_business_days_in_week_mask
  let count : Int :=
    business_loop week_mask (end_date - (start_date + whole_weeks * 7)).toNat
      start_weekday count
  if swapped then -count else count

/-- The body of the `retain` closure in `normalise_holidays`, run over the
sorted list: drop an element equal to the previously kept one or whose weekday
is not a business day; otherwise keep it and remember it. -/
def retain_loop (week_mask : WeekMask) : List Int → Option Int → List Int
  | [], _ => []
  | x :: xs, previous_holiday =>
      if previous_holiday = some x ∨ ¬ wmaskGet week_mask (weekday x) then
        retain_loop week_mask xs previous_holiday
      else
        x :: retain_loop week_mask xs (some x)

/-- `fn normalise_holidays(holidays: &[i32], week_mask: &[bool; 7]) -> Vec<i32>`:
sort (`sort_unstable`, modelled by insertion sort — stability is irrelevant on
integers), then retain only first occurrences that fall on business days. -/
def normalise_holidays (holidays : List Int) (week_mask : WeekMask) : List Int :=
  retain_loop week_mask (List.insertionSort (· ≤ ·) holidays) none

/-- A nullable date column: each element is `some date` or `none` (null). -/
abbrev DateCol := List (Option Int)

/-- `ChunkedArray::apply_values`: apply a function to every non-null element,
keeping nulls in place. -/
def apply_values (f : Int → Int) (xs : DateCol) : DateCol :=
  xs.map (Option.map f)

/-- `Int32Chunked::full_null(name, n)`: an all-null column of length `n`. -/
def full_null (n : Nat) : DateCol :=
  List.replicate n none

/-- `binary_elementwise_values f xs ys`: apply `f` to valid pairs; a position
where either side is null yields null. -/
def binary_elementwise_values (f : Int → Int → Int) (xs ys : DateCol) : DateCol :=
  List.zipWith
    (fun a b =>
      match a, b with
      | some x, some y => some (f x y)
      | _, _ => none)
    xs ys

/-- The configuration-error message of `business_day_count`. -/
def week_mask_error : String :=
  "`week_mask` must have at least one business day"

/-- `pub fn business_day_count(start, end, week_mask, holidays) ->
PolarsResult<Series>`: validate the mask, normalise the holidays once, and
dispatch on the operand lengths (end-side scalar, start-side scalar, or
elementwise). `get(0)` on a length-1 column is its head (null or not). -/
def business_day_count (start end_dates : DateCol) (week_mask : WeekMask)
    (holidays : List Int) : Except String DateCol :=
  if ¬ (List.finRange 7).any week_mask then
    .error week_mask_error
  else
    let holidays_n : List Int := normalise_holidays holidays week_mask
    let n_business_days_in_week_mask : Int := (n_business_days week_mask : Nat)
    .ok <|
      if end_dates.length = 1 then
        match end_dates.headD none with
        | some end_date =>
            apply_values
              (fun start_date =>
                business_day_count_impl start_date end_date week_mask
                  n_business_days_in_week_mask holidays_n)
              start
        | none => full_null start.length
      else if start.length = 1 then
        match start.headD none with
        | some start_date =>
            apply_values
              (fun end_date =>
                business_day_count_impl start_date end_date week_mask
                  n_business_days_in_week_mask holidays_n)
              end_dates
        | none => full_null end_dates.length
      else
        binary_elementwise_values
          (fun start_date end_date =>
            business_day_count_impl start_date end_date week_mask
              n_business_days_in_week_mask holidays_n)
          start end_dates

/-- Reference count, written from the specification's words: the number of
integers `d` with `start ≤ d < end` such that `mask[weekday(d)]` is true and
`d` is not in the holiday list. -/
def reference_count (start_date end_date : Int) (week_mask : WeekMask)
    (holidays : List Int) : Int :=
  (((Finset.Ico start_date end_date).filter
      (fun d => wmaskGet week_mask (weekday d) = true ∧ d ∉ holidays)).card : Nat)

/-- Whether a single day is counted as a business day: its weekday is marked
in the mask and it is not a holiday (1 if counted, 0 otherwise). -/
def day_counted (week_mask : WeekMask) (holidays : List Int) (d : Int) : Int :=
  if wmaskGet week_mask (weekday d) = true ∧ d ∉ holidays then 1 else 0

/-- The operand element participating at output position `i` under the
broadcasting rules: a length-1 column contributes its single element at every
position, otherwise the element at `i`. -/
def operand_at (xs : DateCol) (i : Nat) : Option Int :=
  if xs.length = 1 then xs.headD none else xs.getD i none

/-- Two's-complement wraparound of an unbounded integer into `i32`. -/
def wrap32 (x : Int) : Int :=
  (x + 2 ^ 31) % 2 ^ 32 - 2 ^ 31

/-- `weekday` on actual `i32` arithmetic: the subtraction `x - 4` wraps
(release-mode two's complement); the remainder chain is as in `weekday`. -/
def weekday_i32 (x : Int) : Nat :=
  (((wrap32 (x - 4)).tmod 7 + 7).tmod 7).toNat

/-- The Monday-to-Friday week mask (five business days). -/
def mondayToFriday : WeekMask := fun i => decide (i.val < 5)

/-- The all-false week mask (no business days). -/
def allFalseMask : WeekMask := fun _ => false

/-- A weekday index reduced into `Fin 7`. -/
def finMod7 (n : Nat) : Fin 7 := ⟨n % 7, Nat.mod_lt n (by omega)⟩

/-- The number of business days among the `n` consecutive days starting at
`s`: the reference for what the remainder loop and the whole-week closed form
together compute. -/
def business_days_in_range (m : WeekMask) (s : Int) (n : Nat) : Nat :=
  (List.range n).countP (fun (k : Nat) => wmaskGet m (weekday (s + (k : Int))))

theorem tmod_seven_chain_lt (a : Int) : ((a.tmod 7 + 7).tmod 7).toNat < 7 := by
  have hub : a.tmod 7 < 7 := Int.tmod_lt_of_pos a (by norm_num)
  have hlb : -7 < a.tmod 7 := by
    cases a with
    | ofNat m =>
        have : (0 : Int) ≤ (Int.ofNat m).tmod 7 :=
          Int.tmod_nonneg _ (Int.ofNat_nonneg m)
        omega
    | negSucc m =>
        have h1 : (m + 1) % 7 < 7 := Nat.mod_lt _ (by omega)
        have h2 : (Int.negSucc m).tmod 7 = -(((m + 1) % 7 : Nat) : Int) := rfl
        omega
  have h0 : (0 : Int) ≤ a.tmod 7 + 7 := by omega
  rw [Int.tmod_eq_emod h0 (by norm_num)]
  omega

theorem weekday_eq_emod (x : Int) : (weekday x : Int) = (x - 4) % 7 := by
  unfold weekday
  have hub : (x - 4).tmod 7 < 7 := Int.tmod_lt_of_pos _ (by norm_num)
  have hlb : -7 < (x - 4).tmod 7 := by
    cases h : x - 4 with
    | ofNat m =>
        have : (0 : Int) ≤ (Int.ofNat m).tmod 7 :=
          Int.tmod_nonneg _ (Int.ofNat_nonneg m)
        omega
    | negSucc m =>
        have h1 : (m + 1) % 7 < 7 := Nat.mod_lt _ (by omega)
        have h2 : (Int.negSucc m).tmod 7 = -(((m + 1) % 7 : Nat) : Int) := rfl
        omega
  have h0 : (0 : Int) ≤ (x - 4).tmod 7 + 7 := by omega
  rw [Int.tmod_eq_emod h0 (by norm_num)]
  have hd : (x - 4).tmod 7 = (x - 4) - 7 * ((x - 4).tdiv 7) := Int.tmod_def _ _
  omega

theorem weekday_lt (x : Int) : weekday x < 7 := by
  have := weekday_eq_emod x
  omega

theorem weekday_succ (x : Int) : weekday (x + 1) = increment_weekday (weekday x) := by
  have h1 := weekday_eq_emod x
  have h2 := weekday_eq_emod (x + 1)
  unfold increment_weekday
  split
  · omega
  · omega

theorem weekday_add_nat (x : Int) (k : Nat) :
    weekday (x + k) = (weekday x + k) % 7 := by
  have h1 := weekday_eq_emod x
  have h2 := weekday_eq_emod (x + k)
  omega

theorem weekday_add_mul_seven (x w : Int) : weekday (x + w * 7) = weekday x := by
  have h1 := weekday_eq_emod x
  have h2 := weekday_eq_emod (x + w * 7)
  omega

theorem wmaskGet_eq_finMod7 (m : WeekMask) (j : Nat) (h : j < 7) :
    wmaskGet m j = m (finMod7 j) := by
  unfold wmaskGet finMod7
  rw [dif_pos h]
  congr 1
  exact Fin.ext (by simp [Nat.mod_eq_of_lt h])

set_option maxRecDepth 10000 in
set_option maxHeartbeats 1000000 in
theorem week_window_countP (m : Fin 7 → Bool) (w : Fin 7) :
    (List.range 7).countP (fun k => m (finMod7 (w.val + k)))
      = (List.finRange 7).countP m := by
  revert w m
  decide

theorem bdr_week (m : WeekMask) (s : Int) :
    business_days_in_range m s 7 = n_business_days m := by
  unfold business_days_in_range n_business_days
  have hlt := weekday_lt s
  have key : ∀ k : Nat, wmaskGet m (weekday (s + (k : Int)))
      = m (finMod7 ((⟨weekday s, hlt⟩ : Fin 7).val + k)) := by
    intro k
    rw [weekday_add_nat, wmaskGet_eq_finMod7 _ _ (Nat.mod_lt _ (by omega))]
    exact congrArg m (Fin.ext (by simp only [finMod7]; omega))
  simp only [key]
  exact week_window_countP m ⟨weekday s, hlt⟩

theorem bdr_add (m : WeekMask) (s : Int) (a b : Nat) :
    business_days_in_range m s (a + b)
      = business_days_in_range m s a + business_days_in_range m (s + a) b := by
  unfold business_days_in_range
  rw [List.range_add, List.countP_append, List.countP_map]
  have he : ((fun (k : Nat) => wmaskGet m (weekday (s + (k : Int)))) ∘ (fun x => a + x))
      = fun (k : Nat) => wmaskGet m (weekday (s + (a : Int) + (k : Int))) := by
    funext k
    simp only [Function.comp]
    congr 2
    push_cast
    ring
  rw [he]

theorem bdr_weeks (m : WeekMask) (s : Int) (w r : Nat) :
    business_days_in_range m s (7 * w + r)
      = w * n_business_days m + business_days_in_range m (s + 7 * w) r := by
  induction w generalizing s with
  | zero => simp [business_days_in_range]
  | succ w ih =>
      have h7 : 7 * (w + 1) + r = 7 + (7 * w + r) := by omega
      rw [h7, bdr_add, bdr_week, ih]
      have hs : s + 7 + 7 * (w : Int) = s + 7 * ((w : Int) + 1) := by ring
      push_cast
      rw [hs]
      ring

theorem countP_range_succ_shift (p : Int → Bool) (s : Int) (n : Nat) :
    (List.range (n + 1)).countP (fun (k : Nat) => p (s + (k : Int)))
      = (if p s then 1 else 0)
        + (List.range n).countP (fun (k : Nat) => p (s + 1 + (k : Int))) := by
  rw [List.range_succ_eq_map, List.countP_cons, List.countP_map]
  have he : ((fun (k : Nat) => p (s + (k : Int))) ∘ Nat.succ)
      = fun (k : Nat) => p (s + 1 + (k : Int)) := by
    funext k
    simp only [Function.comp]
    congr 1
    push_cast
    ring
  rw [he]
  simp only [Nat.cast_zero, add_zero]
  omega

theorem business_loop_eq (m : WeekMask) (n : Nat) (s : Int) (c : Int) :
    business_loop m n (weekday s) c = c + (business_days_in_range m s n : Int) := by
  induction n generalizing s c with
  | zero => simp [business_loop, business_days_in_range]
  | succ n ih =>
      rw [business_loop, ← weekday_succ]
      rw [ih (s + 1)]
      unfold business_days_in_range
      rw [countP_range_succ_shift (fun d => wmaskGet m (weekday d)) s n]
      split
      · push_cast
        omega
      · push_cast
        omega

theorem impl_forward (s e : Int) (m : WeekMask) (hol : List Int) (hse : s ≤ e) :
    business_day_count_impl s e m ((n_business_days m : Nat) : Int) hol
      = (business_days_in_range m s (e - s).toNat : Int)
        - (((hol.countP fun h => decide (h < e)) : Int)
            - ((hol.countP fun h => decide (h < s)) : Int)) := by
  have hsw : decide (e < s) = false := by simp; omega
  simp only [business_day_count_impl, hsw, Bool.false_eq_true, if_false]
  set d : Nat := (e - s).toNat with hd
  have hes : e - s = (d : Int) := (Int.toNat_of_nonneg (by omega)).symm
  have htdiv : (e - s).tdiv 7 = ((d / 7 : Nat) : Int) := by
    rw [hes, Int.tdiv_eq_ediv (by positivity) (by norm_num)]
    exact (Int.ofNat_ediv d 7).symm
  rw [htdiv]
  have hfuel : (e - (s + ((d / 7 : Nat) : Int) * 7)).toNat = d % 7 := by
    omega
  rw [hfuel]
  have hwd : weekday s = weekday (s + ((d / 7 : Nat) : Int) * 7) :=
    (weekday_add_mul_seven s _).symm
  rw [hwd, business_loop_eq]
  have hsplit : business_days_in_range m s d
      = (d / 7) * n_business_days m
        + business_days_in_range m (s + 7 * ((d / 7 : Nat) : Int)) (d % 7) := by
    have h1 : d = 7 * (d / 7) + d % 7 := by omega
    calc business_days_in_range m s d
        = business_days_in_range m s (7 * (d / 7) + d % 7) := by rw [← h1]
      _ = (d / 7) * n_business_days m
            + business_days_in_range m (s + 7 * ((d / 7 : Nat) : Int)) (d % 7) :=
          bdr_weeks m s (d / 7) (d % 7)
  rw [hsplit]
  push_cast
  ring_nf

theorem countP_or_disjoint {α : Type} (p q : α → Bool) (l : List α)
    (h : ∀ x ∈ l, ¬(p x = true ∧ q x = true)) :
    l.countP (fun x => p x || q x) = l.countP p + l.countP q := by
  induction l with
  | nil => simp
  | cons a t ih =>
      have ha := h a (List.mem_cons_self a t)
      have ht : ∀ x ∈ t, ¬(p x = true ∧ q x = true) := by
        intro x hx
        exact h x (List.mem_cons_of_mem a hx)
      simp only [List.countP_cons, ih ht]
      cases hp : p a <;> cases hq : q a <;> simp_all <;> omega

theorem countP_range_eq_single (s h : Int) (d : Nat) :
    (List.range d).countP (fun (k : Nat) => decide (s + (k : Int) = h))
      = if s ≤ h ∧ h < s + (d : Int) then 1 else 0 := by
  induction d with
  | zero =>
      simp only [List.range_zero, List.countP_nil, Nat.cast_zero, add_zero]
      rw [if_neg (by omega)]
  | succ d ih =>
      rw [List.range_succ, List.countP_append, ih]
      simp only [List.countP_cons, List.countP_nil, decide_eq_true_eq]
      split_ifs <;> simp_all <;> omega

theorem countP_range_mem (s : Int) (d : Nat) (hol : List Int) (hnd : hol.Nodup) :
    (List.range d).countP (fun (k : Nat) => decide ((s + (k : Int)) ∈ hol))
      = hol.countP (fun h => decide (s ≤ h) && decide (h < s + (d : Int))) := by
  induction hol with
  | nil => simp
  | cons a t ih =>
      have hna : a ∉ t := (List.nodup_cons.mp hnd).1
      have hnt : t.Nodup := (List.nodup_cons.mp hnd).2
      have hmem : ∀ k : Nat, decide ((s + (k : Int)) ∈ a :: t)
          = (decide (s + (k : Int) = a) || decide ((s + (k : Int)) ∈ t)) := by
        intro k
        simp [List.mem_cons]
      simp only [hmem]
      rw [countP_or_disjoint _ _ _ (by
        intro k hk hand
        have h1 : s + (k : Int) = a := of_decide_eq_true hand.1
        have h2 : (s + (k : Int)) ∈ t := of_decide_eq_true hand.2
        exact hna (h1 ▸ h2))]
      rw [countP_range_eq_single, ih hnt]
      simp only [List.countP_cons, Bool.and_eq_true, decide_eq_true_eq]
      split_ifs <;> simp_all <;> omega

theorem countP_window_split (hol : List Int) (s e : Int) (hse : s ≤ e) :
    hol.countP (fun h => decide (h < e))
      = hol.countP (fun h => decide (h < s))
        + hol.countP (fun h => decide (s ≤ h) && decide (h < e)) := by
  induction hol with
  | nil => simp
  | cons a t ih =>
      simp only [List.countP_cons, Bool.and_eq_true, decide_eq_true_eq, ih]
      split_ifs <;> simp_all <;> omega

theorem countP_and_split {α : Type} (p q : α → Bool) (l : List α) :
    l.countP p = l.countP (fun a => p a && q a) + l.countP (fun a => p a && !q a) := by
  induction l with
  | nil => simp
  | cons a t ih =>
      simp only [List.countP_cons, ih]
      cases hp : p a <;> cases hq : q a <;> simp <;> omega

theorem filter_Ico_card_eq_countP (s : Int) (n : Nat) (p : Int → Prop)
    [DecidablePred p] :
    ((Finset.Ico s (s + (n : Int))).filter p).card
      = (List.range n).countP (fun (k : Nat) => decide (p (s + (k : Int)))) := by
  induction n with
  | zero => simp
  | succ n ih =>
      have hstep : s + ((n + 1 : Nat) : Int) = (s + (n : Int)) + 1 := by push_cast; ring
      rw [hstep]
      have hico : Finset.Ico s (s + (n : Int) + 1)
          = insert (s + (n : Int)) (Finset.Ico s (s + (n : Int))) := by
        ext x
        simp only [Finset.mem_Ico, Finset.mem_insert]
        omega
      rw [hico, Finset.filter_insert, List.range_succ, List.countP_append]
      simp only [List.countP_cons, List.countP_nil, decide_eq_true_eq]
      by_cases hp : p (s + (n : Int))
      · rw [if_pos hp, Finset.card_insert_of_not_mem (by
          intro hmem
          simp only [Finset.mem_filter, Finset.mem_Ico] at hmem
          omega), ih, if_pos hp]
      · rw [if_neg hp, ih, if_neg hp]
        omega

theorem reference_count_eq_bdr (s e : Int) (m : WeekMask) (hol : List Int)
    (hse : s ≤ e) (hnd : hol.Nodup)
    (hb : ∀ h ∈ hol, wmaskGet m (weekday h) = true) :
    reference_count s e m hol
      = (business_days_in_range m s (e - s).toNat : Int)
        - (((hol.countP fun h => decide (h < e)) : Int)
            - ((hol.countP fun h => decide (h < s)) : Int)) := by
  set d : Nat := (e - s).toNat with hd
  have hes : e = s + (d : Int) := by omega
  have hcard : reference_count s e m hol
      = ((List.range d).countP
          (fun (k : Nat) =>
            decide (wmaskGet m (weekday (s + (k : Int))) = true ∧ (s + (k : Int)) ∉ hol)) : Int) := by
    unfold reference_count
    rw [hes, filter_Ico_card_eq_countP]
  have hpred : ∀ x : Int, decide (wmaskGet m (weekday x) = true ∧ x ∉ hol)
      = (wmaskGet m (weekday x) && !(decide (x ∈ hol))) := by
    intro x
    by_cases h1 : wmaskGet m (weekday x) = true <;> by_cases h2 : x ∈ hol <;>
      simp [h1, h2]
  have hsub : ∀ x : Int, (wmaskGet m (weekday x) && decide (x ∈ hol)) = decide (x ∈ hol) := by
    intro x
    by_cases h2 : x ∈ hol
    · simp [h2, hb x h2]
    · simp [h2]
  have hsplit := countP_and_split
    (fun (k : Nat) => wmaskGet m (weekday (s + (k : Int))))
    (fun (k : Nat) => decide ((s + (k : Int)) ∈ hol)) (List.range d)
  simp only [hsub] at hsplit
  have hmem := countP_range_mem s d hol hnd
  have hwin := countP_window_split hol s e hse
  have hwin2 : hol.countP (fun h => decide (s ≤ h) && decide (h < s + (d : Int)))
      = hol.countP (fun h => decide (s ≤ h) && decide (h < e)) := by rw [← hes]
  simp only [hpred] at hcard
  rw [hcard]
  unfold business_days_in_range
  omega

/-- C1: for `start ≤ end`, a mask with at least one business day,
`businessDaysPerWeek` the number of `true` mask entries, and a normalised
holiday list (sorted ascending, duplicate-free, all business days), the
closed-form-plus-remainder algorithm `business_day_count_impl` returns the
naive day-by-day count of business days in the half-open interval. -/
theorem business_day_count_impl_eq_reference (s e : Int) (m : WeekMask) (n : Int)
    (hol : List Int) (hse : s ≤ e) (hmask : ∃ i, m i = true)
    (hn : n = ((n_business_days m : Nat) : Int)) (hsorted : hol.Sorted (· ≤ ·))
    (hnd : hol.Nodup) (hb : ∀ h ∈ hol, wmaskGet m (weekday h) = true) :
    business_day_count_impl s e m n hol = reference_count s e m hol := by
  rw [hn, impl_forward s e m hol hse, reference_count_eq_bdr s e m hol hse hnd hb]

theorem impl_reversed_core (s e : Int) (m : WeekMask) (n : Int)
    (hol : List Int) (hlt : e < s) :
    business_day_count_impl s e m n hol
      = -business_day_count_impl (e + 1) (s + 1) m n hol := by
  have h1 : decide (e < s) = true := decide_eq_true hlt
  have h2 : decide (s + 1 < e + 1) = false := decide_eq_false (by omega)
  simp only [business_day_count_impl, h1, h2, if_true, if_false, Bool.false_eq_true,
    Bool.true_eq_false, ite_true, ite_false]

/-- C2: for `start > end`, the algorithm equals the negated forward count on
the swapped and shifted bounds: it swaps the dates, adds 1 to both, computes
the forward count, and negates. -/
theorem business_day_count_impl_reversed (s e : Int) (m : WeekMask) (n : Int)
    (hol : List Int) (hlt : e < s) :
    business_day_count_impl s e m n hol
      = -business_day_count_impl (e + 1) (s + 1) m n hol :=
  impl_reversed_core s e m n hol hlt

/-- C9: with `k` business days per week and no holidays, a span of exactly
`7 * n` days counts `k * n` business days; `n = 0` gives `count(a, a) = 0`. -/
theorem business_day_count_impl_whole_weeks (a : Int) (m : WeekMask) (k : Int)
    (n : Nat) (hk : k = ((n_business_days m : Nat) : Int)) (h1 : 1 ≤ k) :
    business_day_count_impl a (a + 7 * (n : Int)) m k [] = k * (n : Int) := by
  have hle : a ≤ a + 7 * (n : Int) := by
    have hn0 : (0 : Int) ≤ (n : Int) := Int.ofNat_nonneg n
    omega
  have hsw : decide (a + 7 * (n : Int) < a) = false := decide_eq_false (by omega)
  simp only [business_day_count_impl, hsw, Bool.false_eq_true, if_false,
    List.countP_nil]
  have hdiff : a + 7 * (n : Int) - a = 7 * (n : Int) := by ring
  rw [hdiff]
  have htdiv : (7 * (n : Int)).tdiv 7 = (n : Int) := by
    rw [Int.tdiv_eq_ediv (by positivity) (by norm_num)]
    omega
  rw [htdiv]
  have hfuel : (a + 7 * (n : Int) - (a + (n : Int) * 7)).toNat = 0 := by omega
  rw [hfuel]
  simp only [business_loop]
  push_cast
  ring

theorem bdr_succ_last (m : WeekMask) (s : Int) (d : Nat) :
    business_days_in_range m s (d + 1)
      = business_days_in_range m s d
        + (if wmaskGet m (weekday (s + (d : Int))) then 1 else 0) := by
  unfold business_days_in_range
  rw [List.range_succ, List.countP_append]
  simp only [List.countP_cons, List.countP_nil]
  split_ifs <;> simp_all

theorem bdr_shift (m : WeekMask) (s : Int) (d : Nat) :
    (business_days_in_range m s d : Int)
        - (business_days_in_range m (s + 1) d : Int)
      = (if wmaskGet m (weekday s) then 1 else 0)
        - (if wmaskGet m (weekday (s + (d : Int))) then 1 else 0) := by
  induction d with
  | zero =>
      simp [business_days_in_range]
  | succ d ih =>
      rw [bdr_succ_last, bdr_succ_last]
      have hc : weekday (s + 1 + (d : Int)) = weekday (s + ((d + 1 : Nat) : Int)) := by
        congr 1
        push_cast
        ring
      rw [hc]
      push_cast
      push_cast at ih
      omega

theorem countP_lt_succ (hol : List Int) (x : Int) (hnd : hol.Nodup) :
    hol.countP (fun h => decide (h < x + 1))
      = hol.countP (fun h => decide (h < x)) + (if x ∈ hol then 1 else 0) := by
  induction hol with
  | nil => simp
  | cons a t ih =>
      have hna : a ∉ t := (List.nodup_cons.mp hnd).1
      have hnt : t.Nodup := (List.nodup_cons.mp hnd).2
      simp only [List.countP_cons, List.mem_cons, decide_eq_true_eq, ih hnt]
      by_cases hax : x = a
      · subst hax
        have hxt : x ∉ t := hna
        simp only [hxt, if_false, or_false, if_pos rfl]
        split_ifs <;> omega
      · simp only [hax, false_or]
        split_ifs <;> omega

theorem day_counted_eq (m : WeekMask) (hol : List Int) (x : Int)
    (hb : ∀ h ∈ hol, wmaskGet m (weekday h) = true) :
    day_counted m hol x
      = (if wmaskGet m (weekday x) then 1 else 0) - (if x ∈ hol then 1 else 0) := by
  unfold day_counted
  by_cases h1 : wmaskGet m (weekday x) = true <;> by_cases h2 : x ∈ hol <;>
    simp_all

theorem impl_self (a : Int) (m : WeekMask) (n : Int) (hol : List Int) :
    business_day_count_impl a a m n hol = 0 := by
  have hsw : decide (a < a) = false := decide_eq_false (lt_irrefl a)
  simp only [business_day_count_impl, hsw, Bool.false_eq_true, if_false, sub_self,
    Int.zero_tdiv, zero_mul, add_zero, neg_sub]
  simp [business_loop]

theorem impl_pair_sum_of_lt (a b : Int) (m : WeekMask) (hol : List Int)
    (hab : a < b) (hnd : hol.Nodup)
    (hb : ∀ h ∈ hol, wmaskGet m (weekday h) = true) :
    business_day_count_impl a b m ((n_business_days m : Nat) : Int) hol
      + business_day_count_impl b a m ((n_business_days m : Nat) : Int) hol
      = day_counted m hol a - day_counted m hol b := by
  rw [impl_reversed_core b a m _ hol hab]
  rw [impl_forward a b m hol (le_of_lt hab)]
  rw [impl_forward (a + 1) (b + 1) m hol (by omega)]
  have hd : (b + 1 - (a + 1)).toNat = (b - a).toNat := by omega
  rw [hd]
  have hshift := bdr_shift m a (b - a).toNat
  have hab2 : a + (((b - a).toNat : Nat) : Int) = b := by omega
  rw [hab2] at hshift
  have hK1 := countP_lt_succ hol a hnd
  have hK2 := countP_lt_succ hol b hnd
  rw [day_counted_eq m hol a hb, day_counted_eq m hol b hb]
  split_ifs at * <;> omega

/-- C3 (amended): anti-symmetry does not hold in general; instead
`count(a,b) + count(b,a) = counted(min a b) - counted(max a b)`, where
`counted d` is 1 when `d` is a business day outside the holiday list and 0
otherwise. Anti-symmetry holds exactly when the two endpoints have the same
counted status. -/
theorem impl_antisymmetry_defect (a b : Int) (m : WeekMask) (n : Int)
    (hol : List Int) (hn : n = ((n_business_days m : Nat) : Int))
    (hsorted : hol.Sorted (· ≤ ·)) (hnd : hol.Nodup)
    (hb : ∀ h ∈ hol, wmaskGet m (weekday h) = true) :
    business_day_count_impl a b m n hol + business_day_count_impl b a m n hol
      = day_counted m hol (min a b) - day_counted m hol (max a b) := by
  subst hn
  rcases lt_trichotomy a b with hab | hab | hab
  · rw [min_eq_left (le_of_lt hab), max_eq_right (le_of_lt hab)]
    exact impl_pair_sum_of_lt a b m hol hab hnd hb
  · subst hab
    simp [impl_self]
  · rw [min_eq_right (le_of_lt hab), max_eq_left (le_of_lt hab), add_comm]
    exact impl_pair_sum_of_lt b a m hol hab hnd hb

/-- C3 counterexample: with the Monday–Friday mask and no holidays,
`count(0, 2) = 2` (day 0 is a Thursday, so Thursday and Friday are counted)
but `count(2, 0) = -1` (the reversed direction counts the half-open interval
`(0, 2]`, i.e. Friday and Saturday): anti-symmetry fails. -/
theorem impl_antisymmetry_cex :
    ¬(business_day_count_impl 0 2 mondayToFriday 5 []
        = -business_day_count_impl 2 0 mondayToFriday 5 []) := by
  decide

/-- C4 counterexample: day 0 of the epoch is a Thursday, not a Monday, so
with the Monday–Friday mask `count(0, 4)` is 2 (Thursday and Friday), not 4,
and `count(4, 0)` is -2, not -4. -/
theorem epoch_example_cex :
    ¬(business_day_count_impl 0 7 mondayToFriday 5 [] = 5
        ∧ business_day_count_impl 0 4 mondayToFriday 5 [] = 4
        ∧ business_day_count_impl 4 0 mondayToFriday 5 [] = -4) := by
  decide

/-- C4 (amended): with the Monday–Friday mask and no holidays,
`count(0, 7) = 5` holds; but day 0 is a Thursday (the epoch 1970-01-01), so
`count(0, 4)` counts Thursday, Friday, Saturday, Sunday, giving 2, and
`count(4, 0) = -2`.  Starting from day 4 (a Monday), the spec's intended
Monday-based figures hold: `count(4, 11) = 5`, `count(4, 8) = 4`,
`count(8, 4) = -4`. -/
theorem epoch_example_amended :
    business_day_count_impl 0 7 mondayToFriday 5 [] = 5
      ∧ business_day_count_impl 0 4 mondayToFriday 5 [] = 2
      ∧ business_day_count_impl 4 0 mondayToFriday 5 [] = -2
      ∧ business_day_count_impl 4 11 mondayToFriday 5 [] = 5
      ∧ business_day_count_impl 4 8 mondayToFriday 5 [] = 4
      ∧ business_day_count_impl 8 4 mondayToFriday 5 [] = -4 := by
  decide

theorem retain_loop_mem (m : WeekMask) :
    ∀ (l : List Int) (prev : Option Int),
      l.Sorted (· ≤ ·) →
      (∀ p, prev = some p → ∀ x ∈ l, p ≤ x) →
      ∀ y, y ∈ retain_loop m l prev
        ↔ (y ∈ l ∧ wmaskGet m (weekday y) = true ∧ prev ≠ some y) := by
  intro l
  induction l with
  | nil =>
      intro prev _ _ y
      simp [retain_loop]
  | cons a t ih =>
      intro prev hs hprev y
      rw [List.sorted_cons] at hs
      obtain ⟨hat, hst⟩ := hs
      by_cases hcond : prev = some a ∨ ¬ wmaskGet m (weekday a) = true
      · rw [retain_loop, if_pos hcond,
          ih prev hst (fun p hp x hx => hprev p hp x (List.mem_cons_of_mem a hx)) y]
        constructor
        · rintro ⟨hyt, hbus, hpy⟩
          exact ⟨List.mem_cons_of_mem a hyt, hbus, hpy⟩
        · rintro ⟨hyl, hbus, hpy⟩
          by_cases hya : y = a
          · subst hya
            rcases hcond with hc | hc
            · exact absurd hc hpy
            · exact absurd hbus hc
          · rcases List.mem_cons.mp hyl with heq | hyt
            · exact absurd heq hya
            · exact ⟨hyt, hbus, hpy⟩
      · rw [retain_loop, if_neg hcond]
        push_neg at hcond
        obtain ⟨hpa, hbusa⟩ := hcond
        rw [List.mem_cons,
          ih (some a) hst
            (by
              rintro p hp x hx
              injection hp with hp'
              subst hp'
              exact hat x hx)
            y]
        constructor
        · rintro (heq | ⟨hyt, hbus, hay⟩)
          · subst heq
            exact ⟨List.mem_cons_self y t, hbusa, hpa⟩
          · refine ⟨List.mem_cons_of_mem a hyt, hbus, ?_⟩
            intro hpy
            have hya : y ≤ a := hprev y hpy a (List.mem_cons_self a t)
            have hay2 : a ≤ y := hat y hyt
            exact hay (by rw [le_antisymm hya hay2])
        · rintro ⟨hyl, hbus, hpy⟩
          by_cases hya : y = a
          · exact Or.inl hya
          · rcases List.mem_cons.mp hyl with heq | hyt
            · exact absurd heq hya
            · exact Or.inr ⟨hyt, hbus, fun hay => hya (by injection hay with h; omega)⟩

theorem retain_loop_pairwise (m : WeekMask) :
    ∀ (l : List Int) (prev : Option Int),
      l.Sorted (· ≤ ·) →
      (∀ p, prev = some p → ∀ x ∈ l, p ≤ x) →
      (retain_loop m l prev).Pairwise (· < ·) := by
  intro l
  induction l with
  | nil =>
      intro prev _ _
      simp [retain_loop]
  | cons a t ih =>
      intro prev hs hprev
      rw [List.sorted_cons] at hs
      obtain ⟨hat, hst⟩ := hs
      have hprevT : ∀ p, some a = some p → ∀ x ∈ t, p ≤ x := by
        rintro p hp x hx
        injection hp with hp'
        subst hp'
        exact hat x hx
      by_cases hcond : prev = some a ∨ ¬ wmaskGet m (weekday a) = true
      · rw [retain_loop, if_pos hcond]
        exact ih prev hst (fun p hp x hx => hprev p hp x (List.mem_cons_of_mem a hx))
      · rw [retain_loop, if_neg hcond]
        refine List.Pairwise.cons ?_ (ih (some a) hst hprevT)
        intro y hy
        have hmem := (retain_loop_mem m t (some a) hst hprevT y).mp hy
        obtain ⟨hyt, _, hay⟩ := hmem
        have : a ≤ y := hat y hyt
        rcases lt_or_eq_of_le this with hlt | heq
        · exact hlt
        · exact absurd (congrArg some heq) hay

theorem normalise_holidays_mem (hol : List Int) (m : WeekMask) (y : Int) :
    y ∈ normalise_holidays hol m ↔ (y ∈ hol ∧ wmaskGet m (weekday y) = true) := by
  unfold normalise_holidays
  rw [retain_loop_mem m (List.insertionSort (· ≤ ·) hol) none
      (List.sorted_insertionSort (· ≤ ·) hol) (by simp) y]
  rw [(List.perm_insertionSort (· ≤ ·) hol).mem_iff]
  simp

theorem normalise_holidays_pairwise (hol : List Int) (m : WeekMask) :
    (normalise_holidays hol m).Pairwise (· < ·) := by
  unfold normalise_holidays
  exact retain_loop_pairwise m (List.insertionSort (· ≤ ·) hol) none
    (List.sorted_insertionSort (· ≤ ·) hol) (by simp)

theorem normalise_holidays_sorted (hol : List Int) (m : WeekMask) :
    (normalise_holidays hol m).Sorted (· ≤ ·) :=
  (normalise_holidays_pairwise hol m).imp (fun h => le_of_lt h)

theorem normalise_holidays_nodup (hol : List Int) (m : WeekMask) :
    (normalise_holidays hol m).Nodup :=
  (normalise_holidays_pairwise hol m).imp (fun h => ne_of_lt h)

/-- C5: `normalise_holidays` returns a sorted, duplicate-free list containing
no non-business days — and exactly the distinct input dates whose weekday the
mask marks as a business day. -/
theorem normalise_holidays_spec (hol : List Int) (m : WeekMask) :
    (normalise_holidays hol m).Sorted (· ≤ ·)
      ∧ (normalise_holidays hol m).Nodup
      ∧ (∀ y ∈ normalise_holidays hol m, wmaskGet m (weekday y) = true)
      ∧ ∀ y, y ∈ normalise_holidays hol m
          ↔ (y ∈ hol ∧ wmaskGet m (weekday y) = true) := by
  refine ⟨normalise_holidays_sorted hol m, normalise_holidays_nodup hol m, ?_, ?_⟩
  · intro y hy
    exact ((normalise_holidays_mem hol m y).mp hy).2
  · exact normalise_holidays_mem hol m

theorem normalise_append_perm (raw : List Int) (h : Int) (m : WeekMask)
    (hbus : wmaskGet m (weekday h) = true)
    (hnotin : h ∉ normalise_holidays raw m) :
    List.Perm (normalise_holidays (raw ++ [h]) m) (h :: normalise_holidays raw m) := by
  rw [List.perm_ext_iff_of_nodup (normalise_holidays_nodup _ m)
      (List.nodup_cons.mpr ⟨hnotin, normalise_holidays_nodup _ m⟩)]
  intro y
  rw [normalise_holidays_mem, List.mem_cons, normalise_holidays_mem]
  constructor
  · rintro ⟨hyraw, hybus⟩
    rcases List.mem_append.mp hyraw with hy | hy
    · exact Or.inr ⟨hy, hybus⟩
    · simp only [List.mem_singleton] at hy
      exact Or.inl hy
  · rintro (rfl | ⟨hy, hybus⟩)
    · exact ⟨List.mem_append.mpr (Or.inr (List.mem_singleton_self y)), hbus⟩
    · exact ⟨List.mem_append.mpr (Or.inl hy), hybus⟩

theorem normalise_append_nonbusiness (raw : List Int) (h : Int) (m : WeekMask)
    (hnb : wmaskGet m (weekday h) = false) :
    normalise_holidays (raw ++ [h]) m = normalise_holidays raw m := by
  apply List.eq_of_perm_of_sorted ?_ (normalise_holidays_sorted _ m)
    (normalise_holidays_sorted _ m)
  rw [List.perm_ext_iff_of_nodup (normalise_holidays_nodup _ m)
      (normalise_holidays_nodup _ m)]
  intro y
  rw [normalise_holidays_mem, normalise_holidays_mem]
  constructor
  · rintro ⟨hyraw, hybus⟩
    rcases List.mem_append.mp hyraw with hy | hy
    · exact ⟨hy, hybus⟩
    · simp only [List.mem_singleton] at hy
      subst hy
      rw [hnb] at hybus
      exact absurd hybus (by simp)
  · rintro ⟨hy, hybus⟩
    exact ⟨List.mem_append.mpr (Or.inl hy), hybus⟩

/-- C6: appending to the raw holiday list a date `h` that is a business day,
absent from the normalised set, and inside `[a, b)` decreases the computed
count by exactly 1; appending a non-business-day date leaves it unchanged. -/
theorem holiday_addition_effect (a b h : Int) (m : WeekMask) (raw : List Int) :
    (wmaskGet m (weekday h) = true → h ∉ normalise_holidays raw m →
      a ≤ h → h < b →
      business_day_count_impl a b m ((n_business_days m : Nat) : Int)
          (normalise_holidays (raw ++ [h]) m)
        = business_day_count_impl a b m ((n_business_days m : Nat) : Int)
            (normalise_holidays raw m) - 1)
    ∧ (wmaskGet m (weekday h) = false →
      business_day_count_impl a b m ((n_business_days m : Nat) : Int)
          (normalise_holidays (raw ++ [h]) m)
        = business_day_count_impl a b m ((n_business_days m : Nat) : Int)
            (normalise_holidays raw m)) := by
  constructor
  · intro hbus hnotin hah hhb
    have hab : a ≤ b := by omega
    have hperm := normalise_append_perm raw h m hbus hnotin
    rw [impl_forward a b m _ hab, impl_forward a b m _ hab]
    have hCe := hperm.countP_eq (fun x => decide (x < b))
    have hCs := hperm.countP_eq (fun x => decide (x < a))
    simp only [List.countP_cons] at hCe hCs
    have h1 : decide (h < b) = true := decide_eq_true hhb
    have h2 : decide (h < a) = false := decide_eq_false (by omega)
    rw [h1] at hCe
    rw [h2] at hCs
    norm_num at hCe hCs
    omega
  · intro hnb
    rw [normalise_append_nonbusiness raw h m hnb]

/-- C8: an all-false week mask makes `business_day_count` return the
configuration error before any computation; a mask with at least one business
day always produces a result. -/
theorem week_mask_validation (start end_dates : DateCol) (m : WeekMask)
    (raw : List Int) :
    ((∀ i, m i = false) →
      business_day_count start end_dates m raw
        = .error week_mask_error)
    ∧ ((∃ i, m i = true) →
      ∃ out, business_day_count start end_dates m raw = .ok out) := by
  constructor
  · intro hall
    have hany : (List.finRange 7).any m = false := by
      rw [List.any_eq_false]
      intro i _
      simp [hall i]
    rw [business_day_count, if_pos (by simp [hany])]
  · rintro ⟨i, hi⟩
    have hany : (List.finRange 7).any m = true := by
      rw [List.any_eq_true]
      exact ⟨i, List.mem_finRange i, hi⟩
    rw [business_day_count, if_neg (by simp [hany])]
    exact ⟨_, rfl⟩

theorem apply_values_getD (f : Int → Int) (xs : DateCol) (i : Nat) :
    (apply_values f xs).getD i none = Option.map f (xs.getD i none) := by
  unfold apply_values
  simp only [List.getD_eq_getElem?_getD, List.getElem?_map]
  cases xs[i]? <;> simp

theorem operand_at_eq_getD (xs : DateCol) (i : Nat) (h : i < xs.length) :
    operand_at xs i = xs.getD i none := by
  unfold operand_at
  split
  · rename_i h1
    have hi : i = 0 := by omega
    subst hi
    cases xs <;> simp_all
  · rfl

/-- C7: with a valid mask, a unit-length null operand yields an all-null
result of the other operand's length, and elementwise a result position is
null exactly when a participating operand element is null. -/
theorem null_propagation (start end_dates : DateCol) (m : WeekMask)
    (raw : List Int) (out : DateCol) (hmask : ∃ i, m i = true)
    (hout : business_day_count start end_dates m raw = .ok out) :
    (end_dates = [none] → out = List.replicate start.length none)
    ∧ (start = [none] → out = List.replicate end_dates.length none)
    ∧ ∀ i, i < out.length →
        (out.getD i none = none
          ↔ (operand_at start i = none ∨ operand_at end_dates i = none)) := by
  have hany : (List.finRange 7).any m = true := by
    rw [List.any_eq_true]
    obtain ⟨i, hi⟩ := hmask
    exact ⟨i, List.mem_finRange i, hi⟩
  rw [business_day_count, if_neg (by simp [hany]), Except.ok.injEq] at hout
  by_cases hE : end_dates.length = 1
  · rw [if_pos hE] at hout
    rcases hhead : end_dates.headD none with _ | e <;> rw [hhead] at hout
    · -- scalar end is null: all-null result of start's length
      refine ⟨fun _ => by rw [← hout]; rfl, ?_, ?_⟩
      · intro hs
        rw [← hout, hs]
        unfold full_null
        rw [hE]
        rfl
      · intro i hi
        rw [← hout] at hi ⊢
        unfold full_null at hi ⊢
        simp only [List.length_replicate] at hi
        simp only [List.getD_eq_getElem?_getD, List.getElem?_replicate_of_lt hi,
          Option.getD_some, true_iff]
        right
        unfold operand_at
        rw [if_pos hE, hhead]
    · -- scalar end is a value: map over start
      refine ⟨?_, ?_, ?_⟩
      · intro hend
        rw [hend] at hhead
        simp at hhead
      · intro hs
        rw [← hout, hs]
        unfold apply_values
        rw [hE]
        rfl
      · intro i hi
        rw [← hout] at hi ⊢
        have hlen : i < start.length := by
          simpa [apply_values] using hi
        rw [apply_values_getD]
        rw [operand_at_eq_getD start i hlen]
        have hoe : operand_at end_dates i = some e := by
          unfold operand_at
          rw [if_pos hE, hhead]
        rw [hoe]
        cases start.getD i none <;> simp
  · rw [if_neg hE] at hout
    by_cases hS : start.length = 1
    · rw [if_pos hS] at hout
      rcases hhead : start.headD none with _ | s0 <;> rw [hhead] at hout
      · -- scalar start is null: all-null result of end's length
        refine ⟨?_, fun _ => by rw [← hout]; rfl, ?_⟩
        · intro hend
          rw [hend] at hE
          simp at hE
        · intro i hi
          rw [← hout] at hi ⊢
          unfold full_null at hi ⊢
          simp only [List.length_replicate] at hi
          simp only [List.getD_eq_getElem?_getD, List.getElem?_replicate_of_lt hi,
            Option.getD_some, true_iff]
          left
          unfold operand_at
          rw [if_pos hS, hhead]
      · -- scalar start is a value: map over end
        refine ⟨?_, ?_, ?_⟩
        · intro hend
          rw [hend] at hE
          simp at hE
        · intro hs
          rw [hs] at hhead
          simp at hhead
        · intro i hi
          rw [← hout] at hi ⊢
          have hlen : i < end_dates.length := by
            simpa [apply_values] using hi
          rw [apply_values_getD]
          rw [operand_at_eq_getD end_dates i hlen]
          have hos : operand_at start i = some s0 := by
            unfold operand_at
            rw [if_pos hS, hhead]
          rw [hos]
          cases end_dates.getD i none <;> simp
    · rw [if_neg hS] at hout
      refine ⟨?_, ?_, ?_⟩
      · intro hend
        rw [hend] at hE
        simp at hE
      · intro hs
        rw [hs] at hS
        simp at hS
      · intro i hi
        rw [← hout] at hi ⊢
        have hlen : i < min start.length end_dates.length := by
          simpa [binary_elementwise_values] using hi
        have hlenS : i < start.length := by omega
        have hlenE : i < end_dates.length := by omega
        unfold binary_elementwise_values
        rw [operand_at_eq_getD start i hlenS, operand_at_eq_getD end_dates i hlenE]
        simp only [List.getD_eq_getElem?_getD, List.getElem?_zipWith]
        rw [List.getElem?_eq_getElem hlenS, List.getElem?_eq_getElem hlenE]
        rcases hsv : start[i] with _ | sv <;> rcases hev : end_dates[i] with _ | ev <;>
          simp

/-- C10: `weekday` (including under genuine `i32` wraparound of `x - 4`)
always lands in `0..6`, and `increment_weekday` keeps `0..6` stable, so every
unchecked mask index in the remainder loop and in `normalise_holidays` is in
bounds. -/
theorem weekday_index_safety :
    (∀ x : Int, weekday_i32 x < 7)
      ∧ (∀ x : Int, weekday x < 7)
      ∧ (∀ w : Nat, w < 7 → increment_weekday w < 7) := by
  refine ⟨?_, weekday_lt, ?_⟩
  · intro x
    exact tmod_seven_chain_lt (wrap32 (x - 4))
  · intro w hw
    unfold increment_weekday
    split <;> omega

theorem weekday_index_safety_witness :
    weekday_i32 (-3) < 7 ∧ weekday 11 < 7 ∧ increment_weekday 6 < 7 :=
  ⟨weekday_index_safety.1 (-3), weekday_index_safety.2.1 11,
    weekday_index_safety.2.2 6 (by omega)⟩

theorem business_day_count_impl_eq_reference_witness :
    business_day_count_impl 0 14 mondayToFriday 5 [4, 5]
      = reference_count 0 14 mondayToFriday [4, 5] :=
  business_day_count_impl_eq_reference 0 14 mondayToFriday 5 [4, 5]
    (by omega) ⟨0, rfl⟩ (by decide) (by decide) (by decide) (by decide)

theorem business_day_count_impl_reversed_witness :
    business_day_count_impl 9 3 mondayToFriday 5 [4]
      = -business_day_count_impl 4 10 mondayToFriday 5 [4] :=
  business_day_count_impl_reversed 9 3 mondayToFriday 5 [4] (by omega)

theorem impl_antisymmetry_defect_witness :
    business_day_count_impl 0 2 mondayToFriday 5 []
        + business_day_count_impl 2 0 mondayToFriday 5 []
      = day_counted mondayToFriday [] (min 0 2)
        - day_counted mondayToFriday [] (max 0 2) :=
  impl_antisymmetry_defect 0 2 mondayToFriday 5 [] (by decide) (by decide)
    (by decide) (by decide)

theorem business_day_count_impl_whole_weeks_witness :
    business_day_count_impl 3 (3 + 7 * ((2 : Nat) : Int)) mondayToFriday 5 []
      = 5 * ((2 : Nat) : Int) :=
  business_day_count_impl_whole_weeks 3 mondayToFriday 5 2 (by decide) (by omega)

theorem holiday_addition_effect_witness :
    (business_day_count_impl 4 11 mondayToFriday 5
        (normalise_holidays ([] ++ [5]) mondayToFriday)
      = business_day_count_impl 4 11 mondayToFriday 5
          (normalise_holidays [] mondayToFriday) - 1)
    ∧ (business_day_count_impl 4 11 mondayToFriday 5
        (normalise_holidays ([] ++ [2]) mondayToFriday)
      = business_day_count_impl 4 11 mondayToFriday 5
          (normalise_holidays [] mondayToFriday)) :=
  ⟨(holiday_addition_effect 4 11 5 mondayToFriday []).1 (by decide) (by decide)
      (by omega) (by omega),
   (holiday_addition_effect 4 11 2 mondayToFriday []).2 (by decide)⟩

theorem null_propagation_witness :
    (([some 4] : DateCol) = [none]
        → ([some 2, none] : DateCol) = List.replicate 2 none)
    ∧ (([some 0, none] : DateCol) = [none]
        → ([some 2, none] : DateCol) = List.replicate 1 none)
    ∧ ∀ i, i < ([some 2, none] : DateCol).length →
        (([some 2, none] : DateCol).getD i none = none
          ↔ (operand_at [some 0, none] i = none ∨ operand_at [some 4] i = none)) :=
  null_propagation [some 0, none] [some 4] mondayToFriday [] [some 2, none]
    ⟨0, rfl⟩ rfl

theorem week_mask_validation_witness :
    (business_day_count [some 0] [some 4] allFalseMask []
        = .error week_mask_error)
    ∧ ∃ out, business_day_count [some 0] [some 4] mondayToFriday [] = .ok out :=
  ⟨(week_mask_validation [some 0] [some 4] allFalseMask []).1 (fun _ => rfl),
   (week_mask_validation [some 0] [some 4] mondayToFriday []).2 ⟨0, rfl⟩⟩

theorem normalise_holidays_spec_witness :
    (normalise_holidays [5, 4, 5, 2] mondayToFriday).Sorted (· ≤ ·)
      ∧ (normalise_holidays [5, 4, 5, 2] mondayToFriday).Nodup
      ∧ (∀ y ∈ normalise_holidays [5, 4, 5, 2] mondayToFriday,
          wmaskGet mondayToFriday (weekday y) = true)
      ∧ ∀ y, y ∈ normalise_holidays [5, 4, 5, 2] mondayToFriday
          ↔ (y ∈ [5, 4, 5, 2] ∧ wmaskGet mondayToFriday (weekday y) = true) :=
  normalise_holidays_spec [5, 4, 5, 2] mondayToFriday
